import Mathlib

/-!
Shallow embedding of the BibFix record-linkage core (src/bibfixer/):
`cleaner.py`, `deduplicator.py` and `enricher.py`.  Entries are modelled as
insertion-ordered association lists from field names to string values
(Python dicts of strings).  Text is modelled at the code-point level
(`List Char`); the third-party `unidecode` transliteration is modelled as
the identity, which is exact on ASCII input (all concrete inputs below are
ASCII).  Python's `str.lower` agrees with `Char.toLower` on ASCII.
All recursion is structural (fuel-based where the source loops), so every
definition evaluates by kernel reduction.
-/

namespace BibFix

/-- ASCII whitespace class of Python's `\s` / `str.strip`. -/
def pyWs (c : Char) : Bool :=
  c = ' ' || c = '\t' || c = '\n' || c = '\r' || c = '\x0b' || c = '\x0c'

/-- Python `str.lower` on a code-point list (ASCII-exact). -/
def lowerL (l : List Char) : List Char := l.map Char.toLower

/-- Python `str.strip()`: drop leading and trailing whitespace. -/
def pyStrip (l : List Char) : List Char :=
  ((l.dropWhile pyWs).reverse.dropWhile pyWs).reverse

/-- Python `str.strip()` on strings. -/
def pyStripS (s : String) : String := ⟨pyStrip s.data⟩

/-- Python `str.lower()` on strings. -/
def lowerS (s : String) : String := ⟨lowerL s.data⟩

/-- `re.sub(r"\s+", " ", ·)`: collapse each maximal whitespace run to one
space.  `prevWs` records whether the previous character was whitespace. -/
def collapseWsAux : Bool → List Char → List Char
  | _, [] => []
  | prevWs, c :: rest =>
    if pyWs c then
      if prevWs then collapseWsAux true rest else ' ' :: collapseWsAux true rest
    else c :: collapseWsAux false rest

/-- `re.sub(r"\s+", " ", s)`. -/
def collapseWs (l : List Char) : List Char := collapseWsAux false l

/-- Python `str.split(sep)` for a non-empty separator, fuel-based so that it
is structurally recursive (`fuel ≥ length + 1` suffices). -/
def splitOnFuel (sep : List Char) : Nat → List Char → List Char → List (List Char)
  | _, [], acc => [acc.reverse]
  | 0, l, acc => [acc.reverse ++ l]
  | fuel + 1, c :: rest, acc =>
    if sep.isPrefixOf (c :: rest) then
      acc.reverse :: splitOnFuel sep fuel (List.drop (sep.length - 1) rest) []
    else
      splitOnFuel sep fuel rest (c :: acc)

/-- Python `s.split(sep)` (non-empty `sep`). -/
def pySplit (s sep : String) : List String :=
  (splitOnFuel sep.data (s.data.length + 1) s.data []).map fun l => ⟨l⟩

/-- Decimal digits of `n`, least significant first (fuel-based; exact for
`fuel ≥ n`). -/
def digitsRevAux : Nat → Nat → List Char
  | 0, _ => []
  | fuel + 1, n => if n = 0 then [] else Nat.digitChar (n % 10) :: digitsRevAux fuel (n / 10)

/-- Python `str(n)` for a natural number. -/
def natStr (n : Nat) : String :=
  if n = 0 then "0" else ⟨(digitsRevAux n n).reverse⟩

/-- Numeric value of a decimal digit character. -/
def digitVal (c : Char) : Nat := c.toNat - 48

/-- Value of a little-endian decimal digit list (used only to show that the
decimal rendering is injective). -/
def digitsVal : List Char → Nat
  | [] => 0
  | c :: rest => digitVal c + 10 * digitsVal rest

/-- An entry: a Python dict of string fields, insertion ordered. -/
abbrev Entry := List (String × String)

/-- `k in entry` / `entry[k]`: first binding of field `k`. -/
def egetOpt (e : Entry) (k : String) : Option String :=
  (e.find? fun p => p.1 == k).map fun p => p.2

/-- Python `entry.get(k, "")`. -/
def eget (e : Entry) (k : String) : String := (egetOpt e k).getD ""

/-- The entry's citation key `entry["ID"]`. -/
def eid (e : Entry) : String := eget e "ID"

/-- Python dict assignment `entry[k] = v`: replace in place, else append. -/
def esetF : Entry → String → String → Entry
  | [], k, v => [(k, v)]
  | (k0, v0) :: rest, k, v =>
    if k0 == k then (k0, v) :: rest else (k0, v0) :: esetF rest k v

/-! ## cleaner.py -/

/-- `cleaner.normalize_string`: collapse whitespace runs of the stripped
string to single spaces. -/
def normalize_string (s : String) : String := ⟨collapseWs (pyStrip s.data)⟩

/-- Case-insensitive literal prefix strip: if the lowercase image of `s`
starts with the (lowercase) pattern `p`, drop `p.length` characters of the
original `s`; otherwise `none`. -/
def stripLeadCI (p : List Char) (s : String) : Option String :=
  if lowerL (s.data.take p.length) = p then some ⟨s.data.drop p.length⟩ else none

/-- `re.sub(r"^(https?://(dx\.)?doi\.org/)", "", s, flags=IGNORECASE)`:
the anchored alternation matches exactly one of four resolver prefixes. -/
def stripResolver (s : String) : String :=
  match stripLeadCI "https://dx.doi.org/".data s with
  | some r => r
  | none =>
    match stripLeadCI "http://dx.doi.org/".data s with
    | some r => r
    | none =>
      match stripLeadCI "https://doi.org/".data s with
      | some r => r
      | none =>
        match stripLeadCI "http://doi.org/".data s with
        | some r => r
        | none => s

/-- `re.sub(r"^doi:\s*", "", s, flags=IGNORECASE)`. -/
def stripDoiLabel (s : String) : String :=
  match stripLeadCI "doi:".data s with
  | some r => ⟨r.data.dropWhile pyWs⟩
  | none => s

/-- `cleaner.clean_entry` lines 33-36: the DOI standardisation applied to an
already-cleaned `doi` value (strip, drop resolver URL, drop `doi:` label,
lowercase). -/
def cleanDoiValue (s : String) : String :=
  lowerS (stripDoiLabel (stripResolver (pyStripS s)))

/-- `cleaner.clean_entry`: normalise every value, drop fields that become
empty, then standardise the `doi` field.  (The `value is None` guard of the
source cannot arise here since all values are strings.) -/
def clean_entry (e : Entry) : Entry :=
  let cleaned := e.foldl (fun acc kv =>
    let v := normalize_string kv.2
    if v ≠ "" then acc ++ [(kv.1, v)] else acc) []
  match egetOpt cleaned "doi" with
  | some d => esetF cleaned "doi" (cleanDoiValue d)
  | none => cleaned

/-- `cleaner.clean_database`. -/
def clean_database (db : List Entry) : List Entry := db.map clean_entry

/-! ## enricher.py normalisers and candidate matching -/

/-- `enricher.normalize_text`: transliterate (identity on ASCII), collapse
whitespace, strip, lowercase.  Source order: `re.sub` on the raw text, then
`.strip().lower()`. -/
def normalize_text (s : String) : String := lowerS (pyStripS ⟨collapseWs s.data⟩)

/-- Is `c` one of `[a-z0-9]`? -/
def isLowerAlnum (c : Char) : Bool := (('a' ≤ c && c ≤ 'z') || ('0' ≤ c && c ≤ '9'))

/-- `enricher.normalize_author`: `normalize_text` then keep only `[a-z0-9]`. -/
def normalize_author (s : String) : String := ⟨(normalize_text s).data.filter isLowerAlnum⟩

/-- `enricher.normalize_pages`: keep only digits and hyphens. -/
def normalize_pages (s : String) : String :=
  ⟨s.data.filter fun c => c.isDigit || c = '-'⟩

/-- `enricher.normalize_doi`: strip, lowercase, then drop the resolver URL
and the `doi:` label (the regexes run on the lowercased text there, which
the case-insensitive flag makes equivalent). -/
def normalize_doi (s : String) : String :=
  stripDoiLabel (stripResolver (lowerS (pyStripS s)))

/-- A Crossref work item as consumed by `search_doi`: `title` is the first
element of the `title` list, `authors` the list of `family` names,
`year` the result of `extract_item_year` (a digit string or empty),
`container` the first element of `container-title`. -/
structure CRItem where
  title : String
  authors : List String
  year : String
  container : String
  volume : String
  issue : String
  page : String
  doi : String
deriving DecidableEq, Repr

/-- `enricher.item_has_author_match`: vacuously true when the entry author
list or the item author list is empty; otherwise true iff some item family
name normalises to a non-empty string equal to some normalised non-empty
entry author name. -/
def item_has_author_match (it : CRItem) (authors : List String) : Bool :=
  if authors.isEmpty then true
  else if it.authors.isEmpty then true
  else it.authors.any fun a =>
    let f := normalize_author a
    f ≠ "" && ((authors.filter fun x => x ≠ "").map normalize_author).contains f

/-- `enricher.item_fields_match`: journal / volume / issue / pages must agree
whenever both sides are non-empty; first failure wins. -/
def item_fields_match (e : Entry) (it : CRItem) : Bool × String :=
  let entryJournal :=
    let j := normalize_text (eget e "journal")
    if j ≠ "" then j else normalize_text (eget e "booktitle")
  let itemJournal := normalize_text it.container
  if entryJournal ≠ "" && itemJournal ≠ "" && entryJournal ≠ itemJournal then
    (false, "journal mismatch")
  else
    let entryVolume := normalize_text (eget e "volume")
    let itemVolume := normalize_text it.volume
    if entryVolume ≠ "" && itemVolume ≠ "" && entryVolume ≠ itemVolume then
      (false, "volume mismatch")
    else
      let entryIssue := normalize_text (eget e "number")
      let itemIssue := normalize_text it.issue
      if entryIssue ≠ "" && itemIssue ≠ "" && entryIssue ≠ itemIssue then
        (false, "issue mismatch")
      else
        let entryPages := normalize_pages (eget e "pages")
        let itemPages := normalize_pages it.page
        if entryPages ≠ "" && itemPages ≠ "" && entryPages ≠ itemPages then
          (false, "pages mismatch")
        else (true, "")

/-- Does the candidate survive every per-candidate check of the loop in
`search_doi` (title-similarity threshold, author corroboration, year,
field corroboration)?  `score` abstracts `title_similarity` (a float
`SequenceMatcher` ratio in the source) into an arbitrary linear order,
with `tau` standing for the literal `0.85`. -/
def itemPasses {A : Type} [LinearOrder A] (score : CRItem → A) (tau : A)
    (e : Option Entry) (authors : List String) (year : String) (it : CRItem) : Bool :=
  if score it < tau then false
  else if !(item_has_author_match it authors) then false
  else if year ≠ "" && it.year ≠ "" && year ≠ it.year then false
  else
    match e with
    | some entry => (item_fields_match entry it).1
    | none => true

/-- One iteration of the candidate loop in `search_doi`: skip a candidate
failing a check, and take a surviving candidate as the new best exactly when
its score strictly exceeds the current best score (`if score > best_score`). -/
def selectStep {A : Type} [LinearOrder A] (score : CRItem → A) (tau : A)
    (e : Option Entry) (authors : List String) (year : String)
    (best : Option CRItem × A) (it : CRItem) : Option CRItem × A :=
  if itemPasses score tau e authors year it then
    if best.2 < score it then (some it, score it) else best
  else best

/-- The candidate-selection loop of `enricher.search_doi`: starting from
`(best_match, best_score) = (None, 0.0)`, fold `selectStep` over the
candidate list in order. -/
def select_best {A : Type} [LinearOrder A] [Zero A] (score : CRItem → A) (tau : A)
    (e : Option Entry) (authors : List String) (year : String)
    (items : List CRItem) : Option CRItem × A :=
  items.foldl (selectStep score tau e authors year) (none, 0)

/-! ## deduplicator.py -/

/-- `deduplicator.normalize_key_text`: `unidecode(text).lower().strip()`
(transliteration modelled as the identity, exact on ASCII). -/
def normalize_key_text (s : String) : String := pyStripS (lowerS s)

/-- The DOI fingerprint of `get_entry_fingerprint`: present iff the entry
has a `doi` field whose stripped value is non-empty. -/
def doiFp (e : Entry) : Option String :=
  match egetOpt e "doi" with
  | some d => if pyStripS d ≠ "" then some (normalize_key_text d) else none
  | none => none

/-- Python `title.isalnum()`-style per-character filter (`str.isalnum`,
ASCII-exact here). -/
def keepAlnum (s : String) : String := ⟨s.data.filter Char.isAlphanum⟩

/-- The content fingerprint of `get_entry_fingerprint`:
`(simple_title, simple_author, year)`, produced only when the normalised
title has length over 10 and a normalised author or year is present. -/
def contentFp (e : Entry) : Option (String × String × String) :=
  let title := normalize_key_text (eget e "title")
  let authorStr := normalize_key_text (eget e "author")
  let year := normalize_key_text (eget e "year")
  if title ≠ "" ∧ 10 < title.data.length ∧ (authorStr ≠ "" ∨ year ≠ "") then
    let simpleTitle := keepAlnum title
    let simpleAuthor :=
      if authorStr ≠ "" then
        let firstPart := (pySplit authorStr " and ").headD authorStr
        if firstPart.data.contains ',' then
          pyStripS ((pySplit firstPart ",").headD firstPart)
        else
          pyStripS ((pySplit firstPart " ").getLastD firstPart)
      else ""
    some (simpleTitle, simpleAuthor, year)
  else none

/-- `deduplicator.get_entry_fingerprint`. -/
def get_entry_fingerprint (e : Entry) : Option String × Option (String × String × String) :=
  (doiFp e, contentFp e)

/-- Inner loop of `merge_entries`: copy each field of `other` onto the
master when the master lacks it or holds an empty value
(`key not in master or not master[key]`). -/
def fillFrom (master other : Entry) : Entry :=
  other.foldl (fun acc kv =>
    if (egetOpt acc kv.1).isNone || eget acc kv.1 == "" then esetF acc kv.1 kv.2
    else acc) master

/-- `deduplicator.merge_entries`: fold the non-master entries onto the first
entry (the source mutates `entries[0]` in place; only called on lists of
length at least two). -/
def merge_entries : List Entry → Entry
  | [] => []
  | master :: rest => rest.foldl fillFrom master

/-- Append `i` to the group of `k`, creating the group at the end on first
sight — the insertion-order semantics of `defaultdict(list)`. -/
def addToGroups {A : Type} [BEq A] (gs : List (A × List String)) (k : A) (i : String) :
    List (A × List String) :=
  match gs with
  | [] => [(k, [i])]
  | (k0, is) :: rest =>
    if k0 == k then (k0, is ++ [i]) :: rest else (k0, is) :: addToGroups rest k i

/-- The first pass of `deduplicate_database` for one of the two key kinds:
group entry IDs by fingerprint in encounter order. -/
def buildGroups {A : Type} [BEq A] (key : Entry → Option A) (db : List Entry) :
    List (A × List String) :=
  db.foldl (fun gs e =>
    match key e with
    | some k => addToGroups gs k (eid e)
    | none => gs) []

/-- The ID list grouped under key `k` (empty when no group exists). -/
def lookupG {A : Type} [BEq A] (gs : List (A × List String)) (k : A) : List String :=
  ((gs.find? fun g => g.1 == k).map fun g => g.2).getD []

/-- The mutable state threaded through `deduplicate_database`: the working
entry list (still containing entries marked for removal, as in the source,
where removal happens only at the end), `ids_to_remove` and `merged_count`. -/
structure DState where
  entries : List Entry
  removed : List String
  count : Nat
deriving Repr, DecidableEq

/-- `entries_by_id[i]` at the current state (IDs are unique in the pipeline,
`uniquify_keys` having run first, so lookup by ID models the alias). -/
def findEntry (es : List Entry) (i : String) : Entry :=
  (es.find? fun e => eid e == i).getD []

/-- `deduplicate_database.process_group`: drop already-removed members; with
fewer than two left do nothing; otherwise merge every remaining member into
the first one (the master), mark the rest removed and count them.  There is
no inspection of the members' DOI values. -/
def process_group (st : DState) (groupIds : List String) : DState :=
  let valid := groupIds.filter fun i => !(st.removed.contains i)
  if valid.length < 2 then st
  else
    let merged := merge_entries (valid.map (findEntry st.entries))
    { entries := st.entries.map fun e => if eid e == valid.headD "" then merged else e
      removed := st.removed ++ valid.tail
      count := st.count + (valid.length - 1) }

/-- `deduplicator.deduplicate_database`: build the DOI and content groups,
process the DOI groups first and the content groups second, rebuild the
entry list without the removed IDs, and return it with `merged_count` —
an integer, exactly as the source returns. -/
def deduplicate_database (db : List Entry) : List Entry × Nat :=
  let doiGroups := buildGroups doiFp db
  let contentGroups := buildGroups contentFp db
  let st0 : DState := ⟨db, [], 0⟩
  let st1 := doiGroups.foldl
    (fun st g => if 1 < g.2.length then process_group st g.2 else st) st0
  let st2 := contentGroups.foldl
    (fun st g => if 1 < g.2.length then process_group st g.2 else st) st1
  let finalEntries :=
    if st2.removed.isEmpty then st2.entries
    else st2.entries.filter fun e => !(st2.removed.contains (eid e))
  (finalEntries, st2.count)

/-! ### uniquify_keys -/

/-- The 26 lowercase suffix letters `chr(97)` … `chr(122)`. -/
def letterChars : List Char :=
  ['a', 'b', 'c', 'd', 'e', 'f', 'g', 'h', 'i', 'j', 'k', 'l', 'm',
   'n', 'o', 'p', 'q', 'r', 's', 't', 'u', 'v', 'w', 'x', 'y', 'z']

/-- The `n`-th candidate suffix of the rename loop: letters `_a` … `_z` for
`n < 26`, then the numeric fallback `_2, _3, …` (candidate `26 + j` carries
number `2 + j`). -/
def suffixChars (n : Nat) : List Char :=
  if h : n < 26 then [letterChars.get ⟨n, h⟩] else (natStr (n - 24)).data

/-- The `n`-th candidate key for base key `base`. -/
def candKey (base : String) (n : Nat) : String :=
  ⟨base.data ++ '_' :: suffixChars n⟩

/-- The `while candidate in existing_keys` loop of `uniquify_keys`, probing
candidates from index `start` upward; fuel-based (the loop terminates in the
source because only finitely many keys exist). -/
def probeFrom (base : String) (seen : List String) : Nat → Nat → String
  | _, 0 => base
  | start, fuel + 1 =>
    if seen.contains (candKey base start) then probeFrom base seen (start + 1) fuel
    else candKey base start

/-- Generate a fresh key for a colliding `base`: first untaken candidate in
the order `_a, …, _z, _2, _3, …` (fuel `|seen| + 27` always suffices, see
`probe_spec`). -/
def probeKey (base : String) (seen : List String) : String :=
  probeFrom base seen 0 (seen.length + 27)

/-- The entry loop of `uniquify_keys`, threading `existing_keys` (a set,
modelled as the list of keys assigned so far). -/
def uniquifyGo : List Entry → List String → List Entry × Nat
  | [], _ => ([], 0)
  | e :: rest, seen =>
    let k := eid e
    if seen.contains k then
      let fresh := probeKey k seen
      let r := uniquifyGo rest (seen ++ [fresh])
      (esetF e "ID" fresh :: r.1, r.2 + 1)
    else
      let r := uniquifyGo rest (seen ++ [k])
      (e :: r.1, r.2)

/-- `deduplicator.uniquify_keys`: rename colliding IDs left to right and
count the renames. -/
def uniquify_keys (db : List Entry) : List Entry × Nat := uniquifyGo db []

/-! ### check_fuzzy_duplicates (the second, effective definition) -/

/-- The alphanumeric-only normalised title used by the fuzzy audit:
`"".join(filter(str.isalnum, unidecode(t).lower().strip()))`. -/
def fuzzySimpleTitle (t : String) : String := keepAlnum (pyStripS (lowerS t))

/-- The warning text emitted by the effective `check_fuzzy_duplicates`,
referencing the current key, the first-seen key and a title excerpt. -/
def fuzzyMsg (key prevKey title : String) : String :=
  "Potential duplicate content: '" ++ key ++ "' looks similar to '" ++ prevKey ++
    "' (Title: " ++ (⟨title.data.take 50⟩ : String) ++ "...)"

/-- One iteration of the effective `check_fuzzy_duplicates` loop over the
`seen_titles` map (an assoc list `simple_title → first ID`): returns the
updated map and an optional warning. -/
def fuzzyStep (seen : List (String × String)) (e : Entry) :
    List (String × String) × Option String :=
  match egetOpt e "title" with
  | none => (seen, none)
  | some t =>
    let simple := fuzzySimpleTitle t
    if simple.data.length < 10 then (seen, none)
    else
      match (seen.find? fun p => p.1 == simple).map fun p => p.2 with
      | some prevKey => (seen, some (fuzzyMsg (eid e) prevKey t))
      | none => (seen ++ [(simple, eid e)], none)

/-- The effective (second) `deduplicator.check_fuzzy_duplicates`: it reads
the database and returns only warnings — it never writes an entry. -/
def check_fuzzy_duplicates (db : List Entry) : List String :=
  (db.foldl (fun acc e =>
    let r := fuzzyStep acc.1 e
    (r.1, acc.2 ++ r.2.toList)) (([] : List (String × String)), ([] : List String))).2

/-! ## Concrete inputs used by the claim theorems and witnesses -/

/-- C1 counterexample, first entry: full content data plus DOI `10.1/aaa`. -/
def cexC1a : Entry :=
  [("ID", "e1"), ("title", "A Study of Widgets"), ("author", "Smith, John"),
   ("year", "2020"), ("doi", "10.1/aaa")]

/-- C1 counterexample, second entry: same content data, DOI `10.1/bbb`. -/
def cexC1b : Entry :=
  [("ID", "e2"), ("title", "A Study of Widgets"), ("author", "Smith, John"),
   ("year", "2020"), ("doi", "10.1/bbb")]

/-- C2 scenario entry `A{ID:"x1", doi:"10.1/ABC"}`. -/
def scenC2a : Entry := [("ID", "x1"), ("doi", "10.1/ABC")]

/-- C2 scenario entry `B{ID:"x2", doi:"10.1/abc"}`. -/
def scenC2b : Entry := [("ID", "x2"), ("doi", "10.1/abc")]

/-- C4 counterexample: carries DOI `10.1/x`, a content title and author but
no year. -/
def cexC4a : Entry :=
  [("ID", "a1"), ("doi", "10.1/x"), ("title", "A Study of Widgets"),
   ("author", "Smith, John")]

/-- C4 counterexample: same DOI `10.1/x`, no title, year 2020. -/
def cexC4b : Entry := [("ID", "a2"), ("doi", "10.1/x"), ("year", "2020")]

/-- C4 counterexample: no DOI, same title and author, year 2020. -/
def cexC4c : Entry :=
  [("ID", "a3"), ("title", "A Study of Widgets"), ("author", "Smith, John"),
   ("year", "2020")]

/-- C5 counterexample: a 12-character alphanumeric title, first entry. -/
def cexC5a : Entry := [("ID", "f1"), ("title", "abcdefghijkl")]

/-- C5 counterexample: the same 12-character title, second entry. -/
def cexC5b : Entry := [("ID", "f2"), ("title", "abcdefghijkl")]

/-- C3 counterexample: a Crossref item claiming no authors at all. -/
def cexC3item : CRItem := ⟨"A Study of Widgets", [], "2020", "", "", "", "", "10.1/abc"⟩

/-- C3 witness item: one author whose family name matches the entry. -/
def witC3item : CRItem := ⟨"A Study of Widgets", ["Smith"], "2020", "", "", "", "", "10.1/abc"⟩

/-- C10 witness: a candidate with the lower score and a matching author. -/
def witC10a : CRItem := ⟨"t1", ["Smith"], "2020", "", "", "", "", "10.1/a"⟩

/-- C10 witness: a candidate with the higher score but a mismatched author. -/
def witC10b : CRItem := ⟨"t2", ["Jones"], "2020", "", "", "", "", "10.1/b"⟩

/-- C10 witness score function (hundredth-scaled integers): 0.90 for the
first candidate, 0.95 otherwise. -/
def witC10score (it : CRItem) : Int := if it.title == "t1" then 90 else 95

end BibFix

namespace BibFix

example : pyStripS "  a b  " = "a b" := by decide
example : lowerS "A1z" = "a1z" := by decide
example : pySplit "smith, john and doe, jane" " and " = ["smith, john", "doe, jane"] := by decide
example : natStr 120 = "120" := by decide
example : eget [("ID", "x"), ("doi", "10.1/a")] "doi" = "10.1/a" := by decide
example : esetF [("ID", "x"), ("doi", "a")] "doi" "b" = [("ID", "x"), ("doi", "b")] := by decide
example : esetF [("ID", "x")] "doi" "b" = [("ID", "x"), ("doi", "b")] := by decide
example : cleanDoiValue "https://doi.org/10.1/AbC" = "10.1/abc" := by decide
example : cleanDoiValue "DOI: 10.1/AbC" = "10.1/abc" := by decide
example : normalize_doi "doi:10.5/Q" = "10.5/q" := by decide
example : normalize_author "Smith, J." = "smithj" := by decide
example : doiFp [("ID", "x1"), ("doi", "10.1/ABC")] = some "10.1/abc" := by decide
example :
    contentFp [("ID", "p1"), ("title", "A Study of Widgets"), ("author", "Smith, John"), ("year", "2020")]
      = some ("astudyofwidgets", "smith", "2020") := by decide
example :
    contentFp [("ID", "p1"), ("title", "A Study of Widgets"), ("author", "John Smith")]
      = some ("astudyofwidgets", "smith", "") := by decide
example : contentFp [("ID", "p1"), ("title", "short"), ("year", "2020")] = none := by decide
example :
    deduplicate_database [[("ID", "x1"), ("doi", "10.1/ABC")], [("ID", "x2"), ("doi", "10.1/abc")]]
      = ([[("ID", "x1"), ("doi", "10.1/ABC")]], 1) := by decide
example : uniquify_keys [[("ID", "a")], [("ID", "a")], [("ID", "a")]]
    = ([[("ID", "a")], [("ID", "a_a")], [("ID", "a_b")]], 2) := by decide
example : candKey "x" 26 = "x_2" := by decide
example : candKey "x" 25 = "x_z" := by decide

end BibFix

namespace BibFix

/-! ## Field-map lemmas -/

theorem egetOpt_cons (k0 v0 : String) (rest : Entry) (k2 : String) :
    egetOpt ((k0, v0) :: rest) k2 = if k0 = k2 then some v0 else egetOpt rest k2 := by
  by_cases h : k0 = k2
  · simp [egetOpt, List.find?_cons_of_pos, h]
  · simp only [egetOpt, h, if_false]
    rw [List.find?_cons_of_neg]
    simp [h]

theorem esetF_cons (k0 v0 : String) (rest : Entry) (k v : String) :
    esetF ((k0, v0) :: rest) k v
      = if k0 = k then (k0, v) :: rest else (k0, v0) :: esetF rest k v := by
  by_cases h : k0 = k <;> simp [esetF, h]

theorem egetOpt_esetF (e : Entry) (k k2 v : String) :
    egetOpt (esetF e k v) k2 = if k2 = k then some v else egetOpt e k2 := by
  induction e with
  | nil =>
    show egetOpt [(k, v)] k2 = _
    rw [egetOpt_cons]
    by_cases h : k2 = k
    · subst h; simp
    · simp [h, Ne.symm h]
  | cons p rest ih =>
    obtain ⟨k0, v0⟩ := p
    rw [esetF_cons]
    by_cases h0 : k0 = k
    · subst h0
      rw [if_pos rfl, egetOpt_cons, egetOpt_cons]
      by_cases h : k0 = k2
      · subst h; simp
      · simp [h, Ne.symm h]
    · simp only [h0, if_false]
      rw [egetOpt_cons, egetOpt_cons, ih]
      by_cases h2 : k0 = k2
      · have : ¬ k2 = k := fun hk => h0 (h2.trans hk)
        simp [h2, this]
      · simp [h2]

theorem eget_esetF_self (e : Entry) (k v : String) : eget (esetF e k v) k = v := by
  simp [eget, egetOpt_esetF]

theorem eget_esetF_ne (e : Entry) (k k2 v : String) (h : k2 ≠ k) :
    eget (esetF e k v) k2 = eget e k2 := by
  simp [eget, egetOpt_esetF, h]

/-! ## C7: merge never overwrites non-empty master fields -/

theorem eget_fill_foldl (fields : List (String × String)) (master : Entry) (k : String)
    (h : eget master k ≠ "") :
    eget (fields.foldl (fun acc kv =>
      if (egetOpt acc kv.1).isNone || eget acc kv.1 == "" then esetF acc kv.1 kv.2
      else acc) master) k = eget master k := by
  induction fields generalizing master with
  | nil => rfl
  | cons kv rest ih =>
    rw [List.foldl_cons]
    have hstep : eget (if (egetOpt master kv.1).isNone || eget master kv.1 == "" then
        esetF master kv.1 kv.2 else master) k = eget master k := by
      by_cases hk : kv.1 = k
      · subst hk
        have h1 : (egetOpt master kv.1).isNone = false := by
          cases hm : egetOpt master kv.1 with
          | none => exact absurd (by simp [eget, hm]) h
          | some w => rfl
        have h2 : (eget master kv.1 == "") = false := by
          simpa using h
        rw [h1, h2]
        rfl
      · by_cases hc : ((egetOpt master kv.1).isNone || eget master kv.1 == "") = true
        · rw [if_pos hc]
          exact eget_esetF_ne master kv.1 k kv.2 (Ne.symm hk)
        · rw [if_neg hc]
    rw [ih _ (by rw [hstep]; exact h), hstep]

theorem eget_fillFrom (other master : Entry) (k : String)
    (h : eget master k ≠ "") : eget (fillFrom master other) k = eget master k :=
  eget_fill_foldl other master k h

/-- C7: `merge_entries` fills only absent or empty fields of the master —
every field of the master (the first entry of the group) holding a non-empty
value before the merge holds the same value afterwards. -/
theorem C7_master_fields_preserved (entries : List Entry) (master : Entry)
    (rest : List Entry) (hsplit : entries = master :: rest) (k : String)
    (h : eget master k ≠ "") : eget (merge_entries entries) k = eget master k := by
  subst hsplit
  induction rest generalizing master with
  | nil => rfl
  | cons o rest ih =>
    show eget (List.foldl fillFrom master (o :: rest)) k = _
    rw [List.foldl_cons]
    have hf := eget_fillFrom o master k h
    have hrec := ih (fillFrom master o) (by rw [hf]; exact h)
    show eget (List.foldl fillFrom (fillFrom master o) rest) k = _
    calc eget (List.foldl fillFrom (fillFrom master o) rest) k
        = eget (fillFrom master o) k := hrec
      _ = eget master k := hf

/-- C7 witness: a master with a non-empty `doi` keeps it across a merge with
an entry carrying a different `doi`. -/
theorem C7_witness :
    eget (merge_entries [[("ID", "x"), ("doi", "10.1/a")], [("doi", "10.9/b"), ("note", "n")]])
      "doi" = "10.1/a" :=
  C7_master_fields_preserved _ _ _ rfl "doi" (by decide)

end BibFix

namespace BibFix

/-! ## C1: content groups with conflicting DOIs -/

/-- C1 counterexample: two entries share a content fingerprint yet carry the
distinct non-empty normalized DOIs `10.1/aaa` and `10.1/bbb` (so their DOI
groups are singletons and both survive the DOI pass), and
`deduplicate_database` still merges them: the second entry is removed and
the merge count is 1, so the group is not left intact as claimed. -/
theorem C1_counterexample :
    (contentFp cexC1a = contentFp cexC1b ∧ (contentFp cexC1a).isSome = true) ∧
    doiFp cexC1a = some "10.1/aaa" ∧ doiFp cexC1b = some "10.1/bbb" ∧
    deduplicate_database [cexC1a, cexC1b] = ([cexC1a], 1) := by decide

/-- C1 (amended): `process_group` performs no DOI-distinctness refusal at
all — whenever at least two members of a group survive the removed-ID
filter, it unconditionally merges them into the first surviving member,
marks the others removed and counts them, whatever DOIs the members carry. -/
theorem C1_amended_group_always_merges (st : DState) (groupIds : List String)
    (h : 2 ≤ (groupIds.filter fun i => !(st.removed.contains i)).length) :
    process_group st groupIds =
      { entries := st.entries.map fun e =>
          if eid e == (groupIds.filter fun i => !(st.removed.contains i)).headD "" then
            merge_entries ((groupIds.filter fun i => !(st.removed.contains i)).map
              (findEntry st.entries))
          else e
        removed := st.removed ++ (groupIds.filter fun i => !(st.removed.contains i)).tail
        count := st.count + ((groupIds.filter fun i => !(st.removed.contains i)).length - 1) } := by
  unfold process_group
  rw [if_neg (by omega)]

/-- C1 witness: the amended theorem applied to the two conflicting-DOI
entries — the group is merged, `e2` marked removed, one merge counted. -/
theorem C1_amended_witness :
    process_group ⟨[cexC1a, cexC1b], [], 0⟩ ["e1", "e2"]
      = ⟨[cexC1a, cexC1b], ["e2"], 1⟩ := by
  rw [C1_amended_group_always_merges _ _ (by decide)]
  decide

/-! ## C2: return shape of deduplicate_database -/

/-- C2: at the spec scenario `A{ID:"x1", doi:"10.1/ABC"}`,
`B{ID:"x2", doi:"10.1/abc"}`, the deduplicator in `deduplicator.py` merges
`x2` into `x1` and returns the pair (surviving entries, integer count 1) —
not a list of `(master_id, [removed_ids])` merge records; its caller
`core.py` nevertheless iterates the second component as such records. -/
theorem C2_code_returns_count :
    deduplicate_database [scenC2a, scenC2b] = ([scenC2a], 1) := by decide

/-! ## C4: idempotence of deduplication -/

/-- C4 counterexample: after one run of `deduplicate_database` on three
entries (a DOI-group merge copies the year `2020` onto survivor `a1`,
changing its content fingerprint), a second run over the two survivors
performs one further merge, removing another entry — deduplication is not
idempotent. -/
theorem C4_counterexample :
    (deduplicate_database [cexC4a, cexC4b, cexC4c]).2 = 1 ∧
    ((deduplicate_database [cexC4a, cexC4b, cexC4c]).1).length = 2 ∧
    (deduplicate_database ((deduplicate_database [cexC4a, cexC4b, cexC4c]).1)).2 = 1 ∧
    ((deduplicate_database ((deduplicate_database [cexC4a, cexC4b, cexC4c]).1)).1).length
      = 1 := by decide

theorem foldl_skip_small {A : Type} [BEq A] (gs : List (A × List String)) (st : DState)
    (h : ∀ g ∈ gs, g.2.length ≤ 1) :
    gs.foldl (fun st g => if 1 < g.2.length then process_group st g.2 else st) st = st := by
  induction gs generalizing st with
  | nil => rfl
  | cons g rest ih =>
    rw [List.foldl_cons, if_neg (by have := h g (by simp); omega)]
    exact ih st fun g2 hg => h g2 (by simp [hg])

/-- C4 (amended): `deduplicate_database` is a no-op — nothing removed, no
field changed, zero count — on every collection whose DOI-fingerprint groups
and content-fingerprint groups each hold at most one entry; idempotence
fails in general because a merge may copy a field (such as the year) that
changes a surviving entry's content fingerprint, as the counterexample
shows. -/
theorem C4_amended_noop_on_distinct (db : List Entry)
    (hd : ∀ g ∈ buildGroups doiFp db, g.2.length ≤ 1)
    (hc : ∀ g ∈ buildGroups contentFp db, g.2.length ≤ 1) :
    deduplicate_database db = (db, 0) := by
  simp only [deduplicate_database, foldl_skip_small _ _ hd, foldl_skip_small _ _ hc,
    List.isEmpty_nil, if_true]

/-- C4 witness: two entries with distinct DOI fingerprints and no content
fingerprints are returned unchanged with zero merges. -/
theorem C4_amended_witness :
    deduplicate_database [[("ID", "w1"), ("doi", "10.1/a")], [("ID", "w2"), ("doi", "10.1/b")]]
      = ([[("ID", "w1"), ("doi", "10.1/a")], [("ID", "w2"), ("doi", "10.1/b")]], 0) :=
  C4_amended_noop_on_distinct _ (by decide) (by decide)

end BibFix

namespace BibFix

/-! ## C5: the fuzzy-duplicate audit -/

/-- C5 counterexample: a repeated alphanumeric title of length 12 — under
the claimed threshold of 15 — is not skipped by the effective
`check_fuzzy_duplicates` (the second definition in the file, which shadows
the threshold-15 first one and cuts at length 10): a warning is emitted. -/
theorem C5_counterexample :
    (fuzzySimpleTitle "abcdefghijkl").data.length < 15 ∧
    check_fuzzy_duplicates [cexC5a, cexC5b] = [fuzzyMsg "f2" "f1" "abcdefghijkl"] := by
  decide

/-- C5 (amended): the effective `check_fuzzy_duplicates` is a pure fold of
`fuzzyStep` over the entries (it returns warnings only and never writes the
collection); per entry it skips when there is no title or when the
alphanumeric-only normalised title has length under 10 (not 15); on a
repeated qualifying simplified title it leaves the seen-map unchanged and
emits `fuzzyMsg`, which references the current ID and the first-seen ID;
otherwise it records the title with the current ID and stays silent. -/
theorem C5_amended_fuzzy_audit (seen : List (String × String)) (e : Entry) :
    (egetOpt e "title" = none → fuzzyStep seen e = (seen, none)) ∧
    (∀ t, egetOpt e "title" = some t → (fuzzySimpleTitle t).data.length < 10 →
      fuzzyStep seen e = (seen, none)) ∧
    (∀ t p, egetOpt e "title" = some t → ¬ (fuzzySimpleTitle t).data.length < 10 →
      (seen.find? fun q => q.1 == fuzzySimpleTitle t) = some p →
      fuzzyStep seen e = (seen, some (fuzzyMsg (eid e) p.2 t))) ∧
    (∀ t, egetOpt e "title" = some t → ¬ (fuzzySimpleTitle t).data.length < 10 →
      (seen.find? fun q => q.1 == fuzzySimpleTitle t) = none →
      fuzzyStep seen e = (seen ++ [(fuzzySimpleTitle t, eid e)], none)) ∧
    (∀ db : List Entry, check_fuzzy_duplicates db
      = (db.foldl (fun acc e2 =>
          ((fuzzyStep acc.1 e2).1, acc.2 ++ (fuzzyStep acc.1 e2).2.toList))
          (([] : List (String × String)), ([] : List String))).2) := by
  refine ⟨?_, ?_, ?_, ?_, ?_⟩
  · intro h
    simp only [fuzzyStep, h]
  · intro t ht hlen
    simp only [fuzzyStep, ht]
    rw [if_pos hlen]
  · intro t p ht hlen hfind
    simp only [fuzzyStep, ht]
    rw [if_neg hlen, hfind]
    rfl
  · intro t ht hlen hfind
    simp only [fuzzyStep, ht]
    rw [if_neg hlen, hfind]
    rfl
  · intro db
    rfl

/-- C5 witness: the amended theorem applied to an empty seen-map and the
first 12-character-title entry — the title qualifies (length at least 10)
and is recorded without a warning. -/
theorem C5_amended_witness :
    fuzzyStep [] cexC5a = ([("abcdefghijkl", "f1")], none) :=
  (C5_amended_fuzzy_audit [] cexC5a).2.2.2.1 "abcdefghijkl" (by decide) (by decide) rfl

/-! ## C3: author corroboration -/

/-- C3 counterexample: the entry has a parsed author (`["Smith"]` is not
empty) and the candidate item carries no authors at all, so no candidate
surname can equal an entry surname — yet `item_has_author_match` passes,
contradicting the claimed "passes automatically if and only if the entry
has no parsed authors". -/
theorem C3_counterexample :
    (["Smith"] : List String) ≠ [] ∧ cexC3item.authors = [] ∧
    item_has_author_match cexC3item ["Smith"] = true := by decide

/-- C3 (amended): the author-corroboration check passes automatically when
the entry has no parsed authors or when the candidate has no authors;
otherwise it passes exactly when some candidate author surname normalises
to a non-empty string equal to the normalisation of some non-empty entry
author surname. -/
theorem C3_amended_author_check (it : CRItem) (authors : List String) :
    item_has_author_match it authors = true ↔
      authors = [] ∨ it.authors = [] ∨
        ∃ a ∈ it.authors, normalize_author a ≠ "" ∧
          normalize_author a ∈ (authors.filter fun x => x ≠ "").map normalize_author := by
  unfold item_has_author_match
  cases h1 : authors.isEmpty with
  | true =>
    have : authors = [] := by
      cases authors with
      | nil => rfl
      | cons a l => simp [List.isEmpty] at h1
    simp [this]
  | false =>
    have ha : ¬ authors = [] := by
      cases authors with
      | nil => simp [List.isEmpty] at h1
      | cons a l => simp
    cases h2 : it.authors.isEmpty with
    | true =>
      have : it.authors = [] := by
        cases hit : it.authors with
        | nil => rfl
        | cons a l => rw [hit] at h2; simp [List.isEmpty] at h2
      simp [this, ha]
    | false =>
      have hb : ¬ it.authors = [] := by
        cases hit : it.authors with
        | nil => rw [hit] at h2; simp [List.isEmpty] at h2
        | cons a l => simp
      rw [if_neg (by decide), if_neg (by decide), List.any_eq_true]
      constructor
      · rintro ⟨a, hmem, hp⟩
        refine Or.inr (Or.inr ⟨a, hmem, ?_⟩)
        have hsplit := (Bool.and_eq_true _ _).mp hp
        refine ⟨by simpa using hsplit.1, ?_⟩
        simpa [List.contains, List.elem_eq_mem] using hsplit.2
      · rintro (h | h | ⟨a, hmem, hne, hin⟩)
        · exact absurd h ha
        · exact absurd h hb
        · refine ⟨a, hmem, ?_⟩
          rw [Bool.and_eq_true]
          exact ⟨by simpa using hne, by simpa [List.contains, List.elem_eq_mem] using hin⟩

/-- C3 witness: the amended characterisation applied to a candidate whose
single family name `Smith` matches the entry author list `["Smith"]`. -/
theorem C3_amended_witness : item_has_author_match witC3item ["Smith"] = true :=
  (C3_amended_author_check witC3item ["Smith"]).mpr
    (Or.inr (Or.inr ⟨"Smith", by decide, by decide, by decide⟩))

end BibFix

namespace BibFix

/-! ## C10: deterministic earliest-wins selection -/

theorem itemPasses_tau {A : Type} [LinearOrder A] (score : CRItem → A) (tau : A)
    (e : Option Entry) (authors : List String) (year : String) (it : CRItem)
    (h : itemPasses score tau e authors year it = true) : ¬ score it < tau := by
  intro hlt
  unfold itemPasses at h
  rw [if_pos hlt] at h
  exact absurd h (by decide)

theorem select_fold_spec {A : Type} [LinearOrder A] (score : CRItem → A) (tau : A)
    (e : Option Entry) (authors : List String) (year : String) (items : List CRItem)
    (acc : Option CRItem × A) :
    (items.foldl (selectStep score tau e authors year) acc = acc ∧
      ∀ s ∈ items, itemPasses score tau e authors year s = true → score s ≤ acc.2) ∨
    (∃ pre it post, items = pre ++ it :: post ∧
      items.foldl (selectStep score tau e authors year) acc = (some it, score it) ∧
      itemPasses score tau e authors year it = true ∧ acc.2 < score it ∧
      (∀ s ∈ pre, itemPasses score tau e authors year s = true → score s < score it) ∧
      (∀ s ∈ post, itemPasses score tau e authors year s = true → score s ≤ score it)) := by
  induction items using List.reverseRecOn with
  | nil => exact Or.inl ⟨rfl, by simp⟩
  | append_singleton xs x ih =>
    have hfold : (xs ++ [x]).foldl (selectStep score tau e authors year) acc
        = selectStep score tau e authors year
            (xs.foldl (selectStep score tau e authors year) acc) x := by
      rw [List.foldl_append]
      rfl
    rcases ih with ⟨heq, hall⟩ | ⟨pre, it, post, hsplit, hres, hpass, haccLt, hpre, hpost⟩
    · cases hp : itemPasses score tau e authors year x with
      | false =>
        refine Or.inl ⟨?_, ?_⟩
        · rw [hfold, heq, selectStep, hp]
          simp
        · intro s hs hps
          rcases List.mem_append.mp hs with h | h
          · exact hall s h hps
          · have : s = x := by simpa using h
            rw [this, hp] at hps
            exact absurd hps (by decide)
      | true =>
        by_cases hlt : (xs.foldl (selectStep score tau e authors year) acc).2 < score x
        · refine Or.inr ⟨xs, x, [], by simp, ?_, hp, ?_, ?_, by simp⟩
          · rw [hfold, selectStep, hp, if_pos hlt]
            simp
          · rw [heq] at hlt
            exact hlt
          · intro s hs hps
            have h1 : score s ≤ acc.2 := hall s hs hps
            rw [heq] at hlt
            exact lt_of_le_of_lt h1 hlt
        · refine Or.inl ⟨?_, ?_⟩
          · rw [hfold, selectStep, hp]
            simp only [if_true]
            rw [if_neg hlt, heq]
          · intro s hs hps
            rcases List.mem_append.mp hs with h | h
            · exact hall s h hps
            · have hsx : s = x := by simpa using h
              rw [heq] at hlt
              rw [hsx]
              exact not_lt.mp hlt
    · cases hp : itemPasses score tau e authors year x with
      | false =>
        refine Or.inr ⟨pre, it, post ++ [x], by rw [hsplit]; simp, ?_, hpass, haccLt, hpre, ?_⟩
        · rw [hfold, hres, selectStep, hp]
          simp
        · intro s hs hps
          rcases List.mem_append.mp hs with h | h
          · exact hpost s h hps
          · have : s = x := by simpa using h
            rw [this, hp] at hps
            exact absurd hps (by decide)
      | true =>
        by_cases hlt : (xs.foldl (selectStep score tau e authors year) acc).2 < score x
        · have hscore : score it < score x := by
            rw [hres] at hlt
            exact hlt
          refine Or.inr ⟨xs, x, [], by simp, ?_, hp, lt_trans haccLt hscore, ?_, by simp⟩
          · rw [hfold, selectStep, hp, if_pos hlt]
            simp
          · intro s hs hps
            rw [hsplit] at hs
            rcases List.mem_append.mp hs with h | h
            · exact lt_trans (hpre s h hps) hscore
            · rcases List.mem_cons.mp h with h2 | h2
              · rw [h2]
                exact hscore
              · exact lt_of_le_of_lt (hpost s h2 hps) hscore
        · refine Or.inr ⟨pre, it, post ++ [x], by rw [hsplit]; simp, ?_, hpass, haccLt, hpre, ?_⟩
          · rw [hfold, selectStep, hp]
            simp only [if_true]
            rw [if_neg hlt, hres]
          · intro s hs hps
            rcases List.mem_append.mp hs with h | h
            · exact hpost s h hps
            · have hsx : s = x := by simpa using h
              rw [hres] at hlt
              rw [hsx]
              exact not_lt.mp hlt

/-- C10: candidate selection in `search_doi` is deterministic with an
earliest-wins tie-break — whenever the loop selects a candidate, that
candidate passed every check, no surviving candidate before it in list
order reaches its score (strictly smaller), and no surviving candidate
after it exceeds its score; and if the threshold is positive and some
candidate survives, a candidate is selected.  `score` abstracts the
floating-point `title_similarity` ratio into a linear order, `tau` the
literal 0.85 and 0 the loop's initial best score. -/
theorem C10_selection_deterministic {A : Type} [LinearOrder A] [Zero A]
    (score : CRItem → A) (tau : A) (e : Option Entry) (authors : List String)
    (year : String) (items : List CRItem) :
    (∀ it, (select_best score tau e authors year items).1 = some it →
      ∃ pre post, items = pre ++ it :: post ∧
        itemPasses score tau e authors year it = true ∧
        (∀ s ∈ pre, itemPasses score tau e authors year s = true → score s < score it) ∧
        (∀ s ∈ post, itemPasses score tau e authors year s = true → score s ≤ score it)) ∧
    ((0 : A) < tau → ∀ it0, it0 ∈ items → itemPasses score tau e authors year it0 = true →
      (select_best score tau e authors year items).1.isSome = true) := by
  constructor
  · intro it hit
    rcases select_fold_spec score tau e authors year items ((none, 0) : Option CRItem × A) with
      ⟨heq, _⟩ | ⟨pre, it2, post, hsplit, hres, hpass, _, hpre, hpost⟩
    · rw [select_best, heq] at hit
      exact absurd hit (by simp)
    · rw [select_best, hres] at hit
      have : it2 = it := by simpa using hit
      subst this
      exact ⟨pre, post, hsplit, hpass, hpre, hpost⟩
  · intro htau it0 hmem hp0
    rcases select_fold_spec score tau e authors year items ((none, 0) : Option CRItem × A) with
      ⟨_, hall⟩ | ⟨pre, it2, post, hsplit, hres, _, _, _, _⟩
    · have h1 : score it0 ≤ 0 := hall it0 hmem hp0
      have h2 : ¬ score it0 < tau := itemPasses_tau score tau e authors year it0 hp0
      exact absurd (lt_of_le_of_lt h1 htau) h2
    · rw [select_best, hres]
      rfl

/-- C10 witness: of two candidates, the later one scores higher (0.95
against 0.90, hundredth-scaled) but fails author corroboration, so the
earlier lower-scoring survivor is the selected candidate. -/
theorem C10_witness :
    ∃ pre post, [witC10a, witC10b] = pre ++ witC10a :: post ∧
      itemPasses witC10score 85 none ["Smith"] "2020" witC10a = true ∧
      (∀ s ∈ pre, itemPasses witC10score 85 none ["Smith"] "2020" s = true →
        witC10score s < witC10score witC10a) ∧
      (∀ s ∈ post, itemPasses witC10score 85 none ["Smith"] "2020" s = true →
        witC10score s ≤ witC10score witC10a) :=
  (C10_selection_deterministic witC10score 85 none ["Smith"] "2020" [witC10a, witC10b]).1
    witC10a (by decide)

end BibFix

namespace BibFix

/-! ## C8 and C9: uniquify_keys -/

theorem digitVal_digitChar (m : Nat) (h : m < 10) : digitVal (Nat.digitChar m) = m := by
  interval_cases m <;> decide

theorem digitChar_isDigit (m : Nat) (h : m < 10) : (Nat.digitChar m).isDigit = true := by
  interval_cases m <;> decide

theorem digitsVal_digitsRevAux : ∀ fuel n, n ≤ fuel → digitsVal (digitsRevAux fuel n) = n := by
  intro fuel
  induction fuel with
  | zero =>
    intro n hn
    interval_cases n
    rfl
  | succ fuel ih =>
    intro n hn
    by_cases h0 : n = 0
    · subst h0
      rfl
    · have hdiv : n / 10 < n := Nat.div_lt_self (Nat.pos_of_ne_zero h0) (by norm_num)
      rw [digitsRevAux, if_neg h0, digitsVal,
        digitVal_digitChar _ (Nat.mod_lt _ (by norm_num)), ih (n / 10) (by omega)]
      exact Nat.mod_add_div n 10

theorem natStr_inj (m n : Nat) (hm : m ≠ 0) (hn : n ≠ 0) (h : natStr m = natStr n) :
    m = n := by
  rw [natStr, if_neg hm, natStr, if_neg hn] at h
  have hd : (digitsRevAux m m).reverse = (digitsRevAux n n).reverse := congrArg String.data h
  have hd2 : digitsRevAux m m = digitsRevAux n n := List.reverse_injective hd
  have hv := congrArg digitsVal hd2
  rwa [digitsVal_digitsRevAux m m le_rfl, digitsVal_digitsRevAux n n le_rfl] at hv

theorem digitsRevAux_digits : ∀ fuel n c, c ∈ digitsRevAux fuel n → c.isDigit = true := by
  intro fuel
  induction fuel with
  | zero =>
    intro n c hc
    simp [digitsRevAux] at hc
  | succ fuel ih =>
    intro n c hc
    rw [digitsRevAux] at hc
    by_cases h0 : n = 0
    · rw [if_pos h0] at hc
      simp at hc
    · rw [if_neg h0] at hc
      rcases List.mem_cons.mp hc with h | h
      · rw [h]
        exact digitChar_isDigit _ (Nat.mod_lt _ (by norm_num))
      · exact ih _ c h

theorem letterChars_nodup : letterChars.Nodup := by decide

theorem letterChars_not_digit : ∀ c ∈ letterChars, c.isDigit = false := by decide

theorem suffixChars_inj (m n : Nat) (h : suffixChars m = suffixChars n) : m = n := by
  unfold suffixChars at h
  by_cases hm : m < 26 <;> by_cases hn : n < 26
  · rw [dif_pos hm, dif_pos hn] at h
    have h1 : letterChars.get ⟨m, hm⟩ = letterChars.get ⟨n, hn⟩ := (List.cons.inj h).1
    exact congrArg Fin.val ((letterChars_nodup.get_inj_iff).mp h1)
  · rw [dif_pos hm, dif_neg hn] at h
    have hc : letterChars.get ⟨m, hm⟩ ∈ (natStr (n - 24)).data := by
      rw [← h]
      simp
    rw [natStr, if_neg (by omega : ¬ n - 24 = 0)] at hc
    have hc2 : letterChars.get ⟨m, hm⟩ ∈ digitsRevAux (n - 24) (n - 24) := by
      rw [← List.mem_reverse]
      exact hc
    have hd := digitsRevAux_digits _ _ _ hc2
    have hnd := letterChars_not_digit _ (List.get_mem letterChars m hm)
    rw [hnd] at hd
    exact absurd hd (by decide)
  · rw [dif_neg hm, dif_pos hn] at h
    have hc : letterChars.get ⟨n, hn⟩ ∈ (natStr (m - 24)).data := by
      rw [h]
      simp
    rw [natStr, if_neg (by omega : ¬ m - 24 = 0)] at hc
    have hc2 : letterChars.get ⟨n, hn⟩ ∈ digitsRevAux (m - 24) (m - 24) := by
      rw [← List.mem_reverse]
      exact hc
    have hd := digitsRevAux_digits _ _ _ hc2
    have hnd := letterChars_not_digit _ (List.get_mem letterChars n hn)
    rw [hnd] at hd
    exact absurd hd (by decide)
  · rw [dif_neg hm, dif_neg hn] at h
    have hs : natStr (m - 24) = natStr (n - 24) := congrArg String.mk h
    have := natStr_inj (m - 24) (n - 24) (by omega) (by omega) hs
    omega

theorem candKey_inj (base : String) : Function.Injective (candKey base) := by
  intro m n h
  have hd : base.data ++ '_' :: suffixChars m = base.data ++ '_' :: suffixChars n :=
    congrArg String.data h
  exact suffixChars_inj m n (List.cons.inj (List.append_cancel_left hd)).2

theorem exists_fresh_cand (base : String) (seen : List String) :
    ∃ n, n < seen.length + 27 ∧ candKey base n ∉ seen := by
  by_contra hcon
  push_neg at hcon
  have hsub : (Finset.range (seen.length + 27)).image (candKey base) ⊆ seen.toFinset := by
    intro x hx
    rcases Finset.mem_image.mp hx with ⟨n, hn, rfl⟩
    exact List.mem_toFinset.mpr (hcon n (Finset.mem_range.mp hn))
  have hcard := Finset.card_le_card hsub
  rw [Finset.card_image_of_injective _ (candKey_inj base), Finset.card_range] at hcard
  have h3 : seen.toFinset.card ≤ seen.length := List.toFinset_card_le seen
  omega

theorem probeFrom_spec (base : String) (seen : List String) :
    ∀ fuel start, (∃ k, start ≤ k ∧ k < start + fuel ∧ candKey base k ∉ seen) →
      ∃ n, start ≤ n ∧ (∀ m, start ≤ m → m < n → candKey base m ∈ seen) ∧
        candKey base n ∉ seen ∧ probeFrom base seen start fuel = candKey base n := by
  intro fuel
  induction fuel with
  | zero =>
    rintro start ⟨k, h1, h2, -⟩
    omega
  | succ fuel ih =>
    rintro start ⟨k, h1, h2, h3⟩
    cases hc : seen.contains (candKey base start) with
    | false =>
      have hmem : candKey base start ∉ seen := by
        simpa [List.contains, List.elem_eq_mem] using hc
      refine ⟨start, le_rfl,
        fun m hm1 hm2 => absurd (lt_of_le_of_lt hm1 hm2) (lt_irrefl start), hmem, ?_⟩
      rw [probeFrom, if_neg (by simpa [List.contains, List.elem_eq_mem] using hc)]
    | true =>
      have hmem : candKey base start ∈ seen := by
        simpa [List.contains, List.elem_eq_mem] using hc
      have hks : k ≠ start := fun he => h3 (he ▸ hmem)
      obtain ⟨n, hn1, hn2, hn3, hn4⟩ := ih (start + 1) ⟨k, by omega, by omega, h3⟩
      refine ⟨n, le_trans (Nat.le_succ start) hn1, ?_, hn3, ?_⟩
      · intro m hm1 hm2
        by_cases hms : m = start
        · rw [hms]
          exact hmem
        · exact hn2 m (by omega) hm2
      · rw [probeFrom, if_pos (by simpa [List.contains, List.elem_eq_mem] using hc)]
        exact hn4

theorem probe_spec (base : String) (seen : List String) :
    ∃ n, (∀ m, m < n → candKey base m ∈ seen) ∧ candKey base n ∉ seen ∧
      probeKey base seen = candKey base n := by
  obtain ⟨k, hk1, hk2⟩ := exists_fresh_cand base seen
  obtain ⟨n, -, h2, h3, h4⟩ :=
    probeFrom_spec base seen (seen.length + 27) 0 ⟨k, by omega, by omega, hk2⟩
  exact ⟨n, fun m hm => h2 m (by omega) hm, h3, h4⟩

theorem probeKey_fresh (base : String) (seen : List String) : probeKey base seen ∉ seen := by
  obtain ⟨n, -, h3, h4⟩ := probe_spec base seen
  rw [h4]
  exact h3

theorem eid_esetF (e : Entry) (v : String) : eid (esetF e "ID" v) = v :=
  eget_esetF_self e "ID" v

theorem uniquifyGo_fresh_nodup : ∀ (db : List Entry) (seen : List String),
    ((uniquifyGo db seen).1.map eid).Nodup ∧
    ∀ i ∈ (uniquifyGo db seen).1.map eid, i ∉ seen := by
  intro db
  induction db with
  | nil =>
    intro seen
    exact ⟨List.nodup_nil, by simp [uniquifyGo]⟩
  | cons e rest ih =>
    intro seen
    cases hc : seen.contains (eid e) with
    | true =>
      have hmem0 : eid e ∈ seen := by
        simpa [List.contains, List.elem_eq_mem] using hc
      have hgo : uniquifyGo (e :: rest) seen
          = (esetF e "ID" (probeKey (eid e) seen)
              :: (uniquifyGo rest (seen ++ [probeKey (eid e) seen])).1,
             (uniquifyGo rest (seen ++ [probeKey (eid e) seen])).2 + 1) := by
        simp [uniquifyGo, hmem0]
      obtain ⟨ihn, ihs⟩ := ih (seen ++ [probeKey (eid e) seen])
      constructor
      · rw [hgo]
        simp only [List.map_cons, List.nodup_cons]
        refine ⟨?_, ihn⟩
        rw [eid_esetF]
        intro hmem
        exact (ihs _ hmem) (by simp)
      · rw [hgo]
        intro i hi
        simp only [List.map_cons, List.mem_cons] at hi
        rcases hi with hi | hi
        · rw [hi, eid_esetF]
          exact probeKey_fresh (eid e) seen
        · intro hiseen
          exact (ihs i hi) (by simp [hiseen])
    | false =>
      have hmem : eid e ∉ seen := by
        simpa [List.contains, List.elem_eq_mem] using hc
      have hgo : uniquifyGo (e :: rest) seen
          = (e :: (uniquifyGo rest (seen ++ [eid e])).1,
             (uniquifyGo rest (seen ++ [eid e])).2) := by
        simp [uniquifyGo, hmem]
      obtain ⟨ihn, ihs⟩ := ih (seen ++ [eid e])
      constructor
      · rw [hgo]
        simp only [List.map_cons, List.nodup_cons]
        refine ⟨?_, ihn⟩
        intro hmem2
        exact (ihs _ hmem2) (by simp)
      · rw [hgo]
        intro i hi
        simp only [List.map_cons, List.mem_cons] at hi
        rcases hi with hi | hi
        · rw [hi]
          exact hmem
        · intro hiseen
          exact (ihs i hi) (by simp [hiseen])

theorem uniquifyGo_noop : ∀ (db : List Entry) (seen : List String),
    (db.map eid).Nodup → (∀ e ∈ db, eid e ∉ seen) → uniquifyGo db seen = (db, 0) := by
  intro db
  induction db with
  | nil =>
    intro seen _ _
    rfl
  | cons e rest ih =>
    intro seen hnodup hout
    have hmem : eid e ∉ seen := hout e (by simp)
    have hc : seen.contains (eid e) = false := by
      simp [List.contains, List.elem_eq_mem, hmem]
    have hne : eid e ∉ rest.map eid := by
      simp only [List.map_cons, List.nodup_cons] at hnodup
      exact hnodup.1
    have hrest := ih (seen ++ [eid e])
      (by simp only [List.map_cons, List.nodup_cons] at hnodup; exact hnodup.2)
      (fun e2 he2 => by
        intro hin
        rcases List.mem_append.mp hin with h | h
        · exact hout e2 (by simp [he2]) h
        · have heq : eid e2 = eid e := by simpa using h
          exact hne (heq ▸ List.mem_map_of_mem eid he2))
    simp [uniquifyGo, hmem, hrest]

/-- C8: `uniquify_keys` always yields pairwise-distinct entry IDs, and on a
collection whose IDs are already pairwise distinct it is a no-op: no entry
renamed and rename count zero. -/
theorem C8_unique_ids_and_noop (db : List Entry) :
    ((uniquify_keys db).1.map eid).Nodup ∧
    ((db.map eid).Nodup → uniquify_keys db = (db, 0)) := by
  constructor
  · exact (uniquifyGo_fresh_nodup db []).1
  · intro h
    exact uniquifyGo_noop db [] h (fun e _ => List.not_mem_nil _)

/-- C8 witness: two entries with distinct IDs are returned unchanged with a
zero rename count. -/
theorem C8_witness :
    uniquify_keys [[("ID", "u1")], [("ID", "u2")]] = ([[("ID", "u1")], [("ID", "u2")]], 0) :=
  (C8_unique_ids_and_noop [[("ID", "u1")], [("ID", "u2")]]).2 (by decide)

/-- C9: the rename loop probes candidate suffixes in the fixed order
`_a, …, _z` (indices 0–25) and then `_2, _3, …` (indices 26 upward), and
assigns the first untaken candidate — `probeKey` returns `candKey base n`
for the least `n` whose candidate is not yet taken; and on the ID sequence
`["smith2020", "smith2020", "smith2020"]` the entries end up as
`smith2020`, `smith2020_a`, `smith2020_b` with two renames. -/
theorem C9_probe_order_and_scenario :
    (∀ base seen, ∃ n, (∀ m, m < n → candKey base m ∈ seen) ∧
      candKey base n ∉ seen ∧ probeKey base seen = candKey base n) ∧
    (∀ base, candKey base 0 = base ++ "_a") ∧
    (∀ base, candKey base 25 = base ++ "_z") ∧
    (∀ base, candKey base 26 = base ++ "_2") ∧
    (∀ base, candKey base 27 = base ++ "_3") ∧
    uniquify_keys [[("ID", "smith2020")], [("ID", "smith2020")], [("ID", "smith2020")]]
      = ([[("ID", "smith2020")], [("ID", "smith2020_a")], [("ID", "smith2020_b")]], 2) := by
  exact ⟨probe_spec, fun base => rfl, fun base => rfl, fun base => rfl, fun base => rfl,
    by decide⟩

/-- C9 witness: the probing characterisation applied to base `smith2020`
with `smith2020` and `smith2020_a` already taken. -/
theorem C9_witness :
    ∃ n, (∀ m, m < n → candKey "smith2020" m ∈ ["smith2020", "smith2020_a"]) ∧
      candKey "smith2020" n ∉ ["smith2020", "smith2020_a"] ∧
      probeKey "smith2020" ["smith2020", "smith2020_a"] = candKey "smith2020" n :=
  C9_probe_order_and_scenario.1 "smith2020" ["smith2020", "smith2020_a"]

end BibFix

namespace BibFix

/-! ## C6: DOI normalisation and grouping -/

theorem lowerL_append (a b : List Char) : lowerL (a ++ b) = lowerL a ++ lowerL b :=
  List.map_append _ _ _

theorem mem_of_head? {A : Type} (l : List A) (c : A) (h : l.head? = some c) : c ∈ l := by
  cases l with
  | nil => simp at h
  | cons a t =>
    have : a = c := by simpa using h
    rw [← this]
    exact List.mem_cons_self a t

theorem dropWhile_noWs (l : List Char) (h : ∀ c ∈ l, pyWs c = false) :
    l.dropWhile pyWs = l := by
  cases l with
  | nil => rfl
  | cons c t =>
    rw [List.dropWhile_cons]
    simp [h c (List.mem_cons_self c t)]

theorem pyStrip_head_last (l : List Char)
    (h1 : ∀ c, l.head? = some c → pyWs c = false)
    (h2 : ∀ c, l.reverse.head? = some c → pyWs c = false) : pyStrip l = l := by
  unfold pyStrip
  have hd1 : l.dropWhile pyWs = l := by
    cases l with
    | nil => rfl
    | cons c t =>
      rw [List.dropWhile_cons]
      simp [h1 c rfl]
  rw [hd1]
  have hd2 : l.reverse.dropWhile pyWs = l.reverse := by
    cases hr : l.reverse with
    | nil => rfl
    | cons c t =>
      rw [List.dropWhile_cons]
      simp [h2 c (by rw [hr]; rfl)]
  rw [hd2, List.reverse_reverse]

theorem pyStrip_noWs (l : List Char) (h : ∀ c ∈ l, pyWs c = false) : pyStrip l = l := by
  apply pyStrip_head_last
  · intro c hc
    exact h c (mem_of_head? l c hc)
  · intro c hc
    exact h c (List.mem_reverse.mp (mem_of_head? l.reverse c hc))

theorem stripLeadCI_matched (p q d : List Char) (hq : lowerL q = p)
    (hlen : q.length = p.length) : stripLeadCI p ⟨q ++ d⟩ = some ⟨d⟩ := by
  unfold stripLeadCI
  have hc : lowerL ((String.mk (q ++ d)).data.take p.length) = p := by
    show lowerL ((q ++ d).take p.length) = p
    rw [← hlen, List.take_left, hq]
  rw [if_pos hc]
  show some (String.mk ((q ++ d).drop p.length)) = some ⟨d⟩
  rw [← hlen, List.drop_left]

theorem stripLeadCI_ne (p : List Char) (s : String) (k : Nat) (hk : k ≤ p.length)
    (hne : (lowerL s.data).take k ≠ p.take k) : stripLeadCI p s = none := by
  unfold stripLeadCI
  rw [if_neg]
  intro heq
  apply hne
  conv_rhs => rw [← heq]
  simp only [lowerL, List.map_take, List.take_take, min_eq_left hk]

theorem dropWhile_all_ws (ws0 d2 : List Char) (h : ∀ c ∈ ws0, pyWs c = true) :
    (ws0 ++ d2).dropWhile pyWs = d2.dropWhile pyWs := by
  induction ws0 with
  | nil => rfl
  | cons c t ih =>
    rw [List.cons_append, List.dropWhile_cons, if_pos (h c (List.mem_cons_self c t))]
    exact ih fun x hx => h x (List.mem_cons_of_mem c hx)

theorem lookupG_cons {A : Type} [BEq A] [LawfulBEq A] [DecidableEq A] (k0 : A) (is : List String)
    (rest : List (A × List String)) (k2 : A) :
    lookupG ((k0, is) :: rest) k2 = if k0 = k2 then is else lookupG rest k2 := by
  by_cases h : k0 = k2
  · simp [lookupG, List.find?_cons_of_pos, h]
  · simp only [h, if_false]
    unfold lookupG
    rw [List.find?_cons_of_neg]
    simp [h]

theorem lookupG_addToGroups {A : Type} [BEq A] [LawfulBEq A] [DecidableEq A] (gs : List (A × List String))
    (k k2 : A) (i : String) :
    lookupG (addToGroups gs k i) k2
      = if k2 = k then lookupG gs k2 ++ [i] else lookupG gs k2 := by
  induction gs with
  | nil =>
    show lookupG [(k, [i])] k2 = _
    rw [lookupG_cons]
    by_cases h : k2 = k
    · subst h
      simp [lookupG]
    · simp [h, Ne.symm h, lookupG]
  | cons g rest ih =>
    obtain ⟨k0, is⟩ := g
    show lookupG (if k0 == k then (k0, is ++ [i]) :: rest
        else (k0, is) :: addToGroups rest k i) k2 = _
    by_cases h0 : k0 = k
    · subst h0
      rw [if_pos (by simp), lookupG_cons, lookupG_cons]
      by_cases h : k0 = k2
      · subst h
        simp
      · simp [h, Ne.symm h]
    · rw [if_neg (by simp [h0]), lookupG_cons, ih, lookupG_cons]
      by_cases h2 : k0 = k2
      · subst h2
        have hn : ¬ k0 = k := h0
        simp [hn, fun hh : k0 = k => h0 hh]
      · simp [h2]

theorem lookupG_buildGroups_aux {A : Type} [BEq A] [LawfulBEq A] [DecidableEq A] (key : Entry → Option A)
    (f : A) : ∀ (db : List Entry) (gs : List (A × List String)),
    lookupG (db.foldl (fun gs e =>
        match key e with
        | some k => addToGroups gs k (eid e)
        | none => gs) gs) f
      = lookupG gs f ++ (db.filter fun e => key e == some f).map eid := by
  intro db
  induction db with
  | nil =>
    intro gs
    simp
  | cons e rest ih =>
    intro gs
    cases hk : key e with
    | none =>
      have hstep : (match key e with
          | some k => addToGroups gs k (eid e)
          | none => gs) = gs := by rw [hk]
      rw [List.foldl_cons, hstep, ih]
      have hf : (key e == some f) = false := by simp [hk]
      rw [List.filter_cons]
      simp [hf]
    | some k =>
      have hstep : (match key e with
          | some k => addToGroups gs k (eid e)
          | none => gs) = addToGroups gs k (eid e) := by rw [hk]
      rw [List.foldl_cons, hstep, ih, lookupG_addToGroups]
      by_cases hf : f = k
      · subst hf
        rw [if_pos rfl, List.filter_cons]
        have ht : (key e == some f) = true := by simp [hk]
        simp [ht, List.append_assoc]
      · rw [if_neg hf, List.filter_cons]
        have ht : (key e == some f) = false := by simp [hk, Ne.symm hf]
        simp [ht]

theorem lookupG_buildGroups {A : Type} [BEq A] [LawfulBEq A] [DecidableEq A] (key : Entry → Option A)
    (db : List Entry) (f : A) :
    lookupG (buildGroups key db) f = (db.filter fun e => key e == some f).map eid := by
  unfold buildGroups
  rw [lookupG_buildGroups_aux]
  simp [lookupG]

end BibFix

namespace BibFix

theorem stripResolver_plain (d2 : List Char) (h3 : (lowerL d2).take 3 = ['1', '0', '.']) :
    stripResolver ⟨d2⟩ = ⟨d2⟩ := by
  unfold stripResolver
  rw [stripLeadCI_ne "https://dx.doi.org/".data ⟨d2⟩ 3 (by decide)
      (by show (lowerL d2).take 3 ≠ _; rw [h3]; decide),
    stripLeadCI_ne "http://dx.doi.org/".data ⟨d2⟩ 3 (by decide)
      (by show (lowerL d2).take 3 ≠ _; rw [h3]; decide),
    stripLeadCI_ne "https://doi.org/".data ⟨d2⟩ 3 (by decide)
      (by show (lowerL d2).take 3 ≠ _; rw [h3]; decide),
    stripLeadCI_ne "http://doi.org/".data ⟨d2⟩ 3 (by decide)
      (by show (lowerL d2).take 3 ≠ _; rw [h3]; decide)]

theorem stripDoiLabel_plain (d2 : List Char) (h3 : (lowerL d2).take 3 = ['1', '0', '.']) :
    stripDoiLabel ⟨d2⟩ = ⟨d2⟩ := by
  unfold stripDoiLabel
  rw [stripLeadCI_ne "doi:".data ⟨d2⟩ 3 (by decide)
      (by show (lowerL d2).take 3 ≠ _; rw [h3]; decide)]

/-- C6: the DOI standardisation of the cleaner maps two DOI values differing
only in letter case, a leading DOI-resolver protocol-and-host prefix (any of
the four `http(s)://(dx.)doi.org/` forms, in any letter case), or a leading
`doi:` label (any case, with optional whitespace after the colon) to the
same string — the lowercased bare DOI; the DOI fingerprint of an entry
depends only on its `doi` field, so entries with equal cleaned DOI values
receive the same fingerprint; and every entry whose DOI fingerprint is `f`
lands in the single group registered under `f`.  `d` is the bare DOI
(whitespace-free, starting with `10.` up to case). -/
theorem C6_doi_variants_same_group (d : List Char)
    (h10 : (lowerL d).take 3 = ['1', '0', '.']) :
    (∀ q d2, (∀ c ∈ q, pyWs c = false) → (∀ c ∈ d2, pyWs c = false) →
      lowerL d2 = lowerL d →
      ((lowerL q = "https://doi.org/".data → cleanDoiValue ⟨q ++ d2⟩ = ⟨lowerL d⟩) ∧
       (lowerL q = "http://doi.org/".data → cleanDoiValue ⟨q ++ d2⟩ = ⟨lowerL d⟩) ∧
       (lowerL q = "https://dx.doi.org/".data → cleanDoiValue ⟨q ++ d2⟩ = ⟨lowerL d⟩) ∧
       (lowerL q = "http://dx.doi.org/".data → cleanDoiValue ⟨q ++ d2⟩ = ⟨lowerL d⟩))) ∧
    (∀ q ws0 d2, (∀ c ∈ q, pyWs c = false) → (∀ c ∈ ws0, pyWs c = true) →
      (∀ c ∈ d2, pyWs c = false) → lowerL q = "doi:".data → lowerL d2 = lowerL d →
      cleanDoiValue ⟨q ++ (ws0 ++ d2)⟩ = ⟨lowerL d⟩) ∧
    (∀ d2, (∀ c ∈ d2, pyWs c = false) → lowerL d2 = lowerL d →
      cleanDoiValue ⟨d2⟩ = ⟨lowerL d⟩) ∧
    (∀ e1 e2 : Entry, egetOpt e1 "doi" = egetOpt e2 "doi" → doiFp e1 = doiFp e2) ∧
    (∀ (db : List Entry) (e : Entry) (f : String), e ∈ db → doiFp e = some f →
      eid e ∈ lookupG (buildGroups doiFp db) f) := by
  refine ⟨?_, ?_, ?_, ?_, ?_⟩
  · intro q d2 hqw hd2w hlow
    have h3 : (lowerL d2).take 3 = ['1', '0', '.'] := by rw [hlow]; exact h10
    have hall : ∀ c ∈ q ++ d2, pyWs c = false := by
      intro c hc
      rcases List.mem_append.mp hc with h | h
      · exact hqw c h
      · exact hd2w c h
    have hstrip : pyStripS ⟨q ++ d2⟩ = ⟨q ++ d2⟩ := by
      unfold pyStripS
      rw [show (String.mk (q ++ d2)).data = q ++ d2 from rfl, pyStrip_noWs _ hall]
    refine ⟨?_, ?_, ?_, ?_⟩
    · intro hq
      have hlen : q.length = ("https://doi.org/".data).length := by
        have := congrArg List.length hq
        simpa [lowerL] using this
      have e19 : stripLeadCI "https://dx.doi.org/".data ⟨q ++ d2⟩ = none :=
        stripLeadCI_ne _ _ 10 (by decide)
          (by show (lowerL (q ++ d2)).take 10 ≠ _
              rw [lowerL_append, hq, List.take_append_of_le_length (by decide)]
              decide)
      have e18 : stripLeadCI "http://dx.doi.org/".data ⟨q ++ d2⟩ = none :=
        stripLeadCI_ne _ _ 5 (by decide)
          (by show (lowerL (q ++ d2)).take 5 ≠ _
              rw [lowerL_append, hq, List.take_append_of_le_length (by decide)]
              decide)
      have em : stripLeadCI "https://doi.org/".data ⟨q ++ d2⟩ = some ⟨d2⟩ :=
        stripLeadCI_matched _ _ _ hq hlen
      have hres : stripResolver ⟨q ++ d2⟩ = ⟨d2⟩ := by
        unfold stripResolver
        rw [e19, e18, em]
      unfold cleanDoiValue
      rw [hstrip, hres, stripDoiLabel_plain d2 h3]
      show (⟨lowerL d2⟩ : String) = ⟨lowerL d⟩
      rw [hlow]
    · intro hq
      have hlen : q.length = ("http://doi.org/".data).length := by
        have := congrArg List.length hq
        simpa [lowerL] using this
      have e19 : stripLeadCI "https://dx.doi.org/".data ⟨q ++ d2⟩ = none :=
        stripLeadCI_ne _ _ 5 (by decide)
          (by show (lowerL (q ++ d2)).take 5 ≠ _
              rw [lowerL_append, hq, List.take_append_of_le_length (by decide)]
              decide)
      have e18 : stripLeadCI "http://dx.doi.org/".data ⟨q ++ d2⟩ = none :=
        stripLeadCI_ne _ _ 9 (by decide)
          (by show (lowerL (q ++ d2)).take 9 ≠ _
              rw [lowerL_append, hq, List.take_append_of_le_length (by decide)]
              decide)
      have e16 : stripLeadCI "https://doi.org/".data ⟨q ++ d2⟩ = none :=
        stripLeadCI_ne _ _ 5 (by decide)
          (by show (lowerL (q ++ d2)).take 5 ≠ _
              rw [lowerL_append, hq, List.take_append_of_le_length (by decide)]
              decide)
      have em : stripLeadCI "http://doi.org/".data ⟨q ++ d2⟩ = some ⟨d2⟩ :=
        stripLeadCI_matched _ _ _ hq hlen
      have hres : stripResolver ⟨q ++ d2⟩ = ⟨d2⟩ := by
        unfold stripResolver
        rw [e19, e18, e16, em]
      unfold cleanDoiValue
      rw [hstrip, hres, stripDoiLabel_plain d2 h3]
      show (⟨lowerL d2⟩ : String) = ⟨lowerL d⟩
      rw [hlow]
    · intro hq
      have hlen : q.length = ("https://dx.doi.org/".data).length := by
        have := congrArg List.length hq
        simpa [lowerL] using this
      have em : stripLeadCI "https://dx.doi.org/".data ⟨q ++ d2⟩ = some ⟨d2⟩ :=
        stripLeadCI_matched _ _ _ hq hlen
      have hres : stripResolver ⟨q ++ d2⟩ = ⟨d2⟩ := by
        unfold stripResolver
        rw [em]
      unfold cleanDoiValue
      rw [hstrip, hres, stripDoiLabel_plain d2 h3]
      show (⟨lowerL d2⟩ : String) = ⟨lowerL d⟩
      rw [hlow]
    · intro hq
      have hlen : q.length = ("http://dx.doi.org/".data).length := by
        have := congrArg List.length hq
        simpa [lowerL] using this
      have e19 : stripLeadCI "https://dx.doi.org/".data ⟨q ++ d2⟩ = none :=
        stripLeadCI_ne _ _ 5 (by decide)
          (by show (lowerL (q ++ d2)).take 5 ≠ _
              rw [lowerL_append, hq, List.take_append_of_le_length (by decide)]
              decide)
      have em : stripLeadCI "http://dx.doi.org/".data ⟨q ++ d2⟩ = some ⟨d2⟩ :=
        stripLeadCI_matched _ _ _ hq hlen
      have hres : stripResolver ⟨q ++ d2⟩ = ⟨d2⟩ := by
        unfold stripResolver
        rw [e19, em]
      unfold cleanDoiValue
      rw [hstrip, hres, stripDoiLabel_plain d2 h3]
      show (⟨lowerL d2⟩ : String) = ⟨lowerL d⟩
      rw [hlow]
  · intro q ws0 d2 hqw hwsw hd2w hql hlow
    have h3 : (lowerL d2).take 3 = ['1', '0', '.'] := by rw [hlow]; exact h10
    have hlenq : q.length = 4 := by
      have := congrArg List.length hql
      simpa [lowerL] using this
    have hd2ne : d2 ≠ [] := by
      intro h0
      rw [h0] at hlow
      rw [← hlow] at h10
      simp [lowerL] at h10
    have hstrip : pyStrip (q ++ (ws0 ++ d2)) = q ++ (ws0 ++ d2) := by
      apply pyStrip_head_last
      · intro c hc
        cases q with
        | nil => simp at hlenq
        | cons a t =>
          have hac : a = c := by simpa using hc
          rw [← hac]
          exact hqw a (List.mem_cons_self a t)
      · intro c hc
        rw [List.reverse_append, List.reverse_append] at hc
        cases hr : d2.reverse with
        | nil => exact absurd (by simpa using hr) hd2ne
        | cons a t =>
          rw [hr] at hc
          have hac : a = c := by simpa using hc
          have hmem : a ∈ d2 := by
            rw [← List.mem_reverse, hr]
            exact List.mem_cons_self a t
          rw [← hac]
          exact hd2w a hmem
    have hstripS : pyStripS ⟨q ++ (ws0 ++ d2)⟩ = ⟨q ++ (ws0 ++ d2)⟩ := by
      unfold pyStripS
      rw [show (String.mk (q ++ (ws0 ++ d2))).data = q ++ (ws0 ++ d2) from rfl, hstrip]
    have hres : stripResolver ⟨q ++ (ws0 ++ d2)⟩ = ⟨q ++ (ws0 ++ d2)⟩ := by
      unfold stripResolver
      rw [stripLeadCI_ne "https://dx.doi.org/".data _ 1 (by decide)
          (by show (lowerL (q ++ (ws0 ++ d2))).take 1 ≠ _
              rw [lowerL_append, hql, List.take_append_of_le_length (by decide)]
              decide),
        stripLeadCI_ne "http://dx.doi.org/".data _ 1 (by decide)
          (by show (lowerL (q ++ (ws0 ++ d2))).take 1 ≠ _
              rw [lowerL_append, hql, List.take_append_of_le_length (by decide)]
              decide),
        stripLeadCI_ne "https://doi.org/".data _ 1 (by decide)
          (by show (lowerL (q ++ (ws0 ++ d2))).take 1 ≠ _
              rw [lowerL_append, hql, List.take_append_of_le_length (by decide)]
              decide),
        stripLeadCI_ne "http://doi.org/".data _ 1 (by decide)
          (by show (lowerL (q ++ (ws0 ++ d2))).take 1 ≠ _
              rw [lowerL_append, hql, List.take_append_of_le_length (by decide)]
              decide)]
    have hlab : stripDoiLabel ⟨q ++ (ws0 ++ d2)⟩ = ⟨d2⟩ := by
      unfold stripDoiLabel
      rw [stripLeadCI_matched "doi:".data q (ws0 ++ d2) hql (by rw [hlenq]; rfl)]
      show (⟨(ws0 ++ d2).dropWhile pyWs⟩ : String) = ⟨d2⟩
      rw [dropWhile_all_ws ws0 d2 hwsw, dropWhile_noWs d2 hd2w]
    unfold cleanDoiValue
    rw [hstripS, hres, hlab]
    show (⟨lowerL d2⟩ : String) = ⟨lowerL d⟩
    rw [hlow]
  · intro d2 hd2w hlow
    have h3 : (lowerL d2).take 3 = ['1', '0', '.'] := by rw [hlow]; exact h10
    have hstrip : pyStripS ⟨d2⟩ = ⟨d2⟩ := by
      unfold pyStripS
      rw [show (String.mk d2).data = d2 from rfl, pyStrip_noWs _ hd2w]
    unfold cleanDoiValue
    rw [hstrip, stripResolver_plain d2 h3, stripDoiLabel_plain d2 h3]
    show (⟨lowerL d2⟩ : String) = ⟨lowerL d⟩
    rw [hlow]
  · intro e1 e2 h
    unfold doiFp
    rw [h]
  · intro db e f he hf
    rw [lookupG_buildGroups]
    exact List.mem_map_of_mem eid (List.mem_filter.mpr ⟨he, by simp [hf]⟩)

/-- C6 witness: a mixed-case resolver-prefixed DOI value cleans to the bare
lowercase DOI `10.1/abc`. -/
theorem C6_witness :
    cleanDoiValue ⟨"https://DOI.org/".data ++ "10.1/AbC".data⟩
      = ⟨lowerL "10.1/abc".data⟩ :=
  ((C6_doi_variants_same_group "10.1/abc".data (by decide)).1
    "https://DOI.org/".data "10.1/AbC".data (by decide) (by decide) (by decide)).1
    (by decide)

end BibFix
